import Mathlib

/-!
Verification development for the time-tz offset-resolution engine.

The extension functions `assume_timezone`, `assume_timezone_utc` and
`to_timezone` are translated from `src/lib.rs`.  The transition-table
search, the zone offset queries and the zone directory live in modules
not present in the source tree (`binary_search`, `timezone_impl`,
`timezones`), so they are modelled from the words of the specification.

Instants and local (offset-less) wall-clock readings are modelled as
`Int` seconds since the Unix epoch.
-/

namespace TimeTz

/-- Sentinel for the minimum representable instant (i64::MIN), used as the
`starts_at_utc` of the first transition entry of compiled zones. -/
def IMIN : Int := -9223372036854775808

/-- Offset value type: UTC displacement in seconds plus a display name plus
a DST flag. -/
structure Offset where
  seconds : Int
  name : String
  is_dst : Bool
deriving DecidableEq

/-- A transition boundary: the UTC instant at which `offset` starts to
apply. -/
structure TransitionEntry where
  starts_at_utc : Int
  offset : Offset
deriving DecidableEq

/-- Modelled from the spec: the transition-table search of the missing
`binary_search` module.  Returns the index of the last entry whose
`starts_at_utc <= instant`, and `0` when no entry qualifies (the totality invariant of the
spec makes the first entry always qualify). -/
def find : List TransitionEntry → Int → Nat
  | [], _ => 0
  | [_], _ => 0
  | _ :: f :: rest, t => if f.starts_at_utc ≤ t then find (f :: rest) t + 1 else 0

/-- A time zone: a name and its ordered transition table. -/
structure Zone where
  name : String
  table : List TransitionEntry
deriving DecidableEq

/-- Fallback entry for out-of-range indexing (never reached on well-formed
tables). -/
def defaultEntry : TransitionEntry := ⟨IMIN, ⟨0, "", false⟩⟩

/-- The `j`-th transition entry of a zone. -/
def Zone.entry (z : Zone) (j : Nat) : TransitionEntry :=
  z.table.getD j defaultEntry

/-- The transition table is strictly ascending by `starts_at_utc`. -/
def sortedTable (l : List TransitionEntry) : Prop :=
  l.Pairwise (fun a b => a.starts_at_utc < b.starts_at_utc)

instance sortedTableDecidable (l : List TransitionEntry) :
    Decidable (sortedTable l) :=
  inferInstanceAs
    (Decidable (l.Pairwise
      (fun (a b : TransitionEntry) => a.starts_at_utc < b.starts_at_utc)))

/-- Modelled from the spec: `get_offset_utc` of the missing
`timezone_impl` module — the offset in force at a UTC instant, via the
transition-table search. -/
def Zone.get_offset_utc (z : Zone) (t : Int) : Offset :=
  (z.entry (find z.table t)).offset

/-- Tri-state resolution result for local times: gap, unique, or
ambiguous. -/
inductive OffsetResult (T : Type) where
  | Some : T → OffsetResult T
  | Ambiguous : T → T → OffsetResult T
  | None : OffsetResult T
deriving DecidableEq

/-- Modelled from the spec: entry `j` self-consistently explains local
time `L` when the UTC instant reconstructed with the offset of entry `j`
falls in the span of entry `j` itself. -/
def Zone.consistentAt (z : Zone) (L : Int) (j : Nat) : Bool :=
  find z.table (L - (z.entry j).offset.seconds) == j

/-- Modelled from the spec: the candidate entries probed around the
transition nearest the pivot (the local time read as UTC): the active
entry at the pivot and its immediate neighbours. -/
def Zone.neighborIdx (z : Zone) (L : Int) : List Nat :=
  let i := find z.table L
  (if i = 0 then [i] else [i - 1, i]) ++
    (if i + 1 < z.table.length then [i + 1] else [])

/-- Modelled from the spec: `get_offset_local` of the missing
`timezone_impl` module — the gap/overlap classification.  The candidate
entries that self-consistently reconstruct the local time are collected
in table (chronological) order; zero, one, or two survivors give `None`,
`Some`, or `Ambiguous` (pre-transition offset first). -/
def Zone.get_offset_local (z : Zone) (L : Int) : OffsetResult Offset :=
  match (z.neighborIdx L).filter (z.consistentAt L) with
  | [] => .None
  | [j] => .Some (z.entry j).offset
  | j :: k :: _ => .Ambiguous (z.entry j).offset (z.entry k).offset

/-- `time::OffsetDateTime`: an absolute instant together with the offset
used to display it.  The wall-clock reading is `utc + offset`. -/
structure OffsetDateTime where
  utc : Int
  offset : Int
deriving DecidableEq

/-- Wall-clock (calendar) reading of an `OffsetDateTime`. -/
def OffsetDateTime.wall (d : OffsetDateTime) : Int := d.utc + d.offset

/-- `PrimitiveDateTime::assume_offset`: read wall-clock `p` at offset `o`. -/
def assume_offset (p : Int) (o : Int) : OffsetDateTime := ⟨p - o, o⟩

/-- `PrimitiveDateTime::assume_utc`: read wall-clock `p` as a UTC instant. -/
def assume_utc (p : Int) : OffsetDateTime := assume_offset p 0

/-- `OffsetDateTime::to_offset`: same instant, displayed at offset `o`. -/
def OffsetDateTime.to_offset (d : OffsetDateTime) (o : Int) : OffsetDateTime :=
  ⟨d.utc, o⟩

/-- `PrimitiveDateTimeExt::assume_timezone` from `src/lib.rs`: resolve the
wall-clock reading `p` in zone `z`, mapping each resolved offset onto `p`. -/
def assume_timezone (p : Int) (z : Zone) : OffsetResult OffsetDateTime :=
  match z.get_offset_local (assume_utc p).utc with
  | .Some a => .Some (assume_offset p a.seconds)
  | .Ambiguous a b =>
      .Ambiguous (assume_offset p a.seconds) (assume_offset p b.seconds)
  | .None => .None

/-- `PrimitiveDateTimeExt::assume_timezone_utc` from `src/lib.rs`: attach to
`p` the offset the zone reports for `p` read as a UTC instant. -/
def assume_timezone_utc (p : Int) (z : Zone) : OffsetDateTime :=
  assume_offset p (z.get_offset_utc (assume_utc p).utc).seconds

/-- `OffsetDateTimeExt::to_timezone` from `src/lib.rs`: re-express the same
instant at the offset the target zone reports for it. -/
def to_timezone (d : OffsetDateTime) (z : Zone) : OffsetDateTime :=
  d.to_offset (z.get_offset_utc d.utc).seconds

/-- Central-European standard-time offset. -/
def CET_OFFSET : Offset := ⟨3600, "CET", false⟩

/-- Central-European summer-time offset. -/
def CEST_OFFSET : Offset := ⟨7200, "CEST", true⟩

/-- Modelled from the spec: the Central-European zone around 2022, with the
spring-forward transition at 2022-03-27T01:00:00Z and the fall-back
transition at 2022-10-30T01:00:00Z. -/
def CET : Zone :=
  ⟨"CET",
    [⟨IMIN, CET_OFFSET⟩, ⟨1648342800, CEST_OFFSET⟩, ⟨1667091600, CET_OFFSET⟩]⟩

/-- Modelled from the spec: Europe/London around 2016, observing +01:00
(BST) from 2016-03-27T01:00:00Z to 2016-10-30T01:00:00Z. -/
def LONDON : Zone :=
  ⟨"Europe/London",
    [⟨IMIN, ⟨0, "GMT", false⟩⟩, ⟨1459040400, ⟨3600, "BST", true⟩⟩,
      ⟨1477789200, ⟨0, "GMT", false⟩⟩]⟩

/-- Modelled from the spec: Europe/Berlin around 2016, observing +02:00
(CEST) from 2016-03-27T01:00:00Z to 2016-10-30T01:00:00Z. -/
def BERLIN : Zone :=
  ⟨"Europe/Berlin",
    [⟨IMIN, ⟨3600, "CET", false⟩⟩, ⟨1459040400, ⟨7200, "CEST", true⟩⟩,
      ⟨1477789200, ⟨3600, "CET", false⟩⟩]⟩

/-- A zone directory entry: a canonical name, its registered aliases, and
the zone they resolve to. -/
structure DirectoryEntry where
  canonical_name : String
  aliases : List String
  zone : Zone
deriving DecidableEq

/-- Modelled from the spec: `get_by_name` of the missing `timezones`
module — exact-match search over canonical names; on a miss, the alias
index is consulted before returning an absence value. -/
def get_by_name (db : List DirectoryEntry) (name : String) : Option Zone :=
  match db.find? (fun e => e.canonical_name == name) with
  | some e => some e.zone
  | none =>
    match db.find? (fun e => e.aliases.contains name) with
    | some e => some e.zone
    | none => none

/-- Does `pat` occur at the very start of the text? -/
def matchesHere : List Char → List Char → Bool
  | [], _ => true
  | _ :: _, [] => false
  | c :: cs, d :: ds => c == d && matchesHere cs ds

/-- Does `pat` occur anywhere inside the text? -/
def hasSub (pat : List Char) : List Char → Bool
  | [] => pat.isEmpty
  | c :: rest => matchesHere pat (c :: rest) || hasSub pat rest

/-- Substring containment on strings: `frag` occurs inside `s`. -/
def nameContains (s frag : String) : Bool := hasSub frag.data s.data

/-- Modelled from the spec: `find_by_name` of the missing `timezones`
module — scan returning every entry whose canonical name contains the
fragment, in database order. -/
def find_by_name (db : List DirectoryEntry) (frag : String) : List Zone :=
  (db.filter (fun e => nameContains e.canonical_name frag)).map
    (fun e => e.zone)

/-- Modelled from the spec: a small sample of the compiled zone directory,
sorted by canonical name, with platform-specific aliases cross-referenced
to canonical entries. -/
def sampleDb : List DirectoryEntry :=
  [⟨"Asia/Shanghai", ["China Standard Time"],
      ⟨"Asia/Shanghai", [⟨IMIN, ⟨28800, "CST", false⟩⟩]⟩⟩,
    ⟨"Asia/Tokyo", ["Tokyo Standard Time"],
      ⟨"Asia/Tokyo", [⟨IMIN, ⟨32400, "JST", false⟩⟩]⟩⟩,
    ⟨"Europe/London", ["GMT Standard Time"], LONDON⟩]

/-! ### Helper lemmas about the transition-table search -/

theorem find_mono (t1 t2 : Int) (h : t1 ≤ t2) :
    ∀ l : List TransitionEntry, find l t1 ≤ find l t2 := by
  intro l
  induction l with
  | nil => simp [find]
  | cons x l ih =>
    cases l with
    | nil => simp [find]
    | cons f rest =>
      simp only [find]
      by_cases hf : f.starts_at_utc ≤ t1
      · rw [if_pos hf, if_pos (le_trans hf h)]
        exact Nat.succ_le_succ ih
      · rw [if_neg hf]
        exact Nat.zero_le _

theorem find_eq_of_no_boundary (t1 t2 : Int) (hle : t1 ≤ t2) :
    ∀ l : List TransitionEntry,
      (∀ e ∈ l, ¬(t1 < e.starts_at_utc ∧ e.starts_at_utc ≤ t2)) →
      find l t1 = find l t2 := by
  intro l
  induction l with
  | nil => intro _; rfl
  | cons x l ih =>
    intro hnb
    cases l with
    | nil => rfl
    | cons f rest =>
      simp only [find]
      by_cases hf : f.starts_at_utc ≤ t1
      · rw [if_pos hf, if_pos (le_trans hf hle),
          ih (fun e he => hnb e (List.mem_cons_of_mem x he))]
      · have h2 : ¬f.starts_at_utc ≤ t2 := fun hc =>
          hnb f (List.mem_cons_of_mem x (List.mem_cons_self f rest))
            ⟨lt_of_not_le hf, hc⟩
        rw [if_neg hf, if_neg h2]

theorem find_lt_length (t : Int) :
    ∀ l : List TransitionEntry, l ≠ [] → find l t < l.length := by
  intro l
  induction l with
  | nil => intro h; exact absurd rfl h
  | cons x l ih =>
    intro _
    cases l with
    | nil => simp [find]
    | cons f rest =>
      simp only [find, List.length_cons]
      by_cases hf : f.starts_at_utc ≤ t
      · rw [if_pos hf]
        have := ih (by simp)
        simp only [List.length_cons] at this
        omega
      · rw [if_neg hf]
        omega

theorem find_starts_le (t : Int) :
    ∀ l : List TransitionEntry,
      (l.getD 0 defaultEntry).starts_at_utc ≤ t →
      (l.getD (find l t) defaultEntry).starts_at_utc ≤ t := by
  intro l
  induction l with
  | nil => intro h; simpa [find] using h
  | cons x l ih =>
    intro h0
    cases l with
    | nil => simpa [find] using h0
    | cons f rest =>
      simp only [find]
      by_cases hf : f.starts_at_utc ≤ t
      · rw [if_pos hf, List.getD_cons_succ]
        exact ih (by simpa using hf)
      · rw [if_neg hf]
        simpa using h0

theorem pairwise_getD_lt {l : List TransitionEntry} (hs : sortedTable l)
    {i j : Nat} (hij : i < j) (hj : j < l.length) :
    (l.getD i defaultEntry).starts_at_utc <
      (l.getD j defaultEntry).starts_at_utc := by
  have hi : i < l.length := lt_trans hij hj
  rw [List.getD_eq_getElem l defaultEntry hi,
    List.getD_eq_getElem l defaultEntry hj]
  exact List.pairwise_iff_getElem.mp hs i j hi hj hij

theorem find_greatest (t : Int) :
    ∀ l : List TransitionEntry, sortedTable l →
      ∀ k, k < l.length → (l.getD k defaultEntry).starts_at_utc ≤ t →
      k ≤ find l t := by
  intro l
  induction l with
  | nil => intro _ k hk; simp at hk
  | cons x l ih =>
    intro hs k hk hke
    cases l with
    | nil =>
      simp only [List.length_cons, List.length_nil] at hk
      omega
    | cons f rest =>
      match k with
      | 0 => exact Nat.zero_le _
      | Nat.succ m =>
        rw [List.getD_cons_succ] at hke
        have hm : m < (f :: rest).length := by
          simp only [List.length_cons] at hk ⊢
          omega
        have hsl : sortedTable (f :: rest) := (List.pairwise_cons.mp hs).2
        have hf : f.starts_at_utc ≤ t := by
          rcases Nat.eq_zero_or_pos m with rfl | hpos
          · simpa using hke
          · exact le_of_lt (lt_of_lt_of_le (pairwise_getD_lt hsl hpos hm)
              (by simpa using hke))
        simp only [find]
        rw [if_pos hf]
        exact Nat.succ_le_succ (ih hsl m hm hke)

theorem find_boundary (l : List TransitionEntry) (hs : sortedTable l)
    (j : Nat) (hj : j < l.length) :
    find l ((l.getD j defaultEntry).starts_at_utc) = j := by
  have hne : l ≠ [] := by
    intro h
    subst h
    simp at hj
  have hge : j ≤ find l ((l.getD j defaultEntry).starts_at_utc) :=
    find_greatest _ l hs j hj le_rfl
  have hlen : find l ((l.getD j defaultEntry).starts_at_utc) < l.length :=
    find_lt_length _ l hne
  have h0 : (l.getD 0 defaultEntry).starts_at_utc ≤
      (l.getD j defaultEntry).starts_at_utc := by
    rcases Nat.eq_zero_or_pos j with rfl | hpos
    · exact le_rfl
    · exact le_of_lt (pairwise_getD_lt hs hpos hj)
  have hle := find_starts_le ((l.getD j defaultEntry).starts_at_utc) l h0
  by_contra hne2
  have hlt : j < find l ((l.getD j defaultEntry).starts_at_utc) :=
    lt_of_le_of_ne hge (fun h => hne2 h.symm)
  exact absurd hle (not_le_of_lt (pairwise_getD_lt hs hlt hlen))

/-! ### Claim theorems -/

/-- C1: for the Central-European zone (standard +01:00, summer +02:00,
spring-forward at 2022-03-27T01:00:00Z), resolving a local time via
`get_offset_local` / `assume_timezone` yields: local 2022-03-27 01:30
(1648344600) gives `Some(+01:00)`, local 02:30 (1648348200) falls in the
gap and gives `None`, and local 03:30 (1648351800) gives `Some(+02:00)`. -/
theorem cet_spring_forward_resolution :
    CET.get_offset_local 1648344600 = .Some CET_OFFSET ∧
    CET_OFFSET.seconds = 3600 ∧
    CET.get_offset_local 1648348200 = .None ∧
    CET.get_offset_local 1648351800 = .Some CEST_OFFSET ∧
    CEST_OFFSET.seconds = 7200 ∧
    assume_timezone 1648344600 CET = .Some (assume_offset 1648344600 3600) ∧
    assume_timezone 1648348200 CET = .None ∧
    assume_timezone 1648351800 CET = .Some (assume_offset 1648351800 7200) := by
  decide

/-- C2: for the same zone with the fall-back transition at
2022-10-30T01:00:00Z from +02:00 to +01:00, local 2022-10-30 02:30
(1667097000) resolves to `Ambiguous(+02:00, +01:00)` with the
pre-transition offset first, the seconds of the first component greater
than the seconds of the second, and the seconds of the two offsets
unequal. -/
theorem cet_fall_back_ambiguous :
    CET.get_offset_local 1667097000 = .Ambiguous CEST_OFFSET CET_OFFSET ∧
    CEST_OFFSET.seconds = 7200 ∧
    CET_OFFSET.seconds = 3600 ∧
    CEST_OFFSET.seconds > CET_OFFSET.seconds ∧
    CEST_OFFSET.seconds ≠ CET_OFFSET.seconds ∧
    (CET.entry 1).offset = CEST_OFFSET ∧
    (CET.entry 2).offset = CET_OFFSET ∧
    (CET.entry 1).starts_at_utc < (CET.entry 2).starts_at_utc ∧
    assume_timezone 1667097000 CET =
      .Ambiguous (assume_offset 1667097000 7200)
        (assume_offset 1667097000 3600) := by
  decide

/-- C3: whenever `get_offset_local` resolves a local time `L` to
`Some o`, the offset `get_offset_utc` reports at the reconstructed UTC
instant `L - o.seconds` has the same `seconds` as `o`. -/
theorem local_some_roundtrip (z : Zone) (L : Int) (o : Offset)
    (h : z.get_offset_local L = .Some o) :
    (z.get_offset_utc (L - o.seconds)).seconds = o.seconds := by
  rcases hfl : (z.neighborIdx L).filter (z.consistentAt L) with _ | ⟨j, rest⟩
  · rw [Zone.get_offset_local, hfl] at h
    cases h
  · cases rest with
    | nil =>
      rw [Zone.get_offset_local, hfl] at h
      have ho : o = (z.entry j).offset := by
        cases h
        rfl
      have hjmem : j ∈ (z.neighborIdx L).filter (z.consistentAt L) := by
        rw [hfl]
        exact List.mem_singleton.mpr rfl
      have hcons : z.consistentAt L j = true := (List.mem_filter.mp hjmem).2
      have hfind : find z.table (L - (z.entry j).offset.seconds) = j := by
        simpa [Zone.consistentAt] using hcons
      subst ho
      rw [Zone.get_offset_utc, hfind]
    | cons k tl =>
      rw [Zone.get_offset_local, hfl] at h
      cases h

/-- C3 witness: the round-trip instantiated on the Central-European zone
at local 2022-03-27 01:30. -/
theorem local_some_roundtrip_check :
    CET.get_offset_local 1648344600 = .Some CET_OFFSET ∧
    (CET.get_offset_utc (1648344600 - CET_OFFSET.seconds)).seconds =
      CET_OFFSET.seconds :=
  ⟨by decide, local_some_roundtrip CET 1648344600 CET_OFFSET (by decide)⟩

/-- C4: `get_offset_utc` is a step function of the instant — for every
zone the selected index into the transition table is monotonically
non-decreasing as the instant increases (unconditionally, including
across transitions), and whenever no transition boundary lies between
the two instants the two offsets agree. -/
theorem get_offset_utc_step_function (z : Zone) (t1 t2 : Int)
    (hle : t1 ≤ t2) :
    find z.table t1 ≤ find z.table t2 ∧
    ((∀ e ∈ z.table, ¬(t1 < e.starts_at_utc ∧ e.starts_at_utc ≤ t2)) →
      z.get_offset_utc t1 = z.get_offset_utc t2) := by
  refine ⟨find_mono t1 t2 hle z.table, fun hnb => ?_⟩
  have heq := find_eq_of_no_boundary t1 t2 hle z.table hnb
  rw [Zone.get_offset_utc, Zone.get_offset_utc, heq]

/-- C4 witness: on the Central-European zone, a pair of instants
straddling the 2022 fall-back transition, where the table index
strictly increases (from 1 to 2), and a boundary-free pair inside the
summer span, where the offsets agree. -/
theorem get_offset_utc_step_function_check :
    ((1648342800 : Int) ≤ 1667091600 ∧
      find CET.table 1648342800 ≤ find CET.table 1667091600) ∧
    (find CET.table 1648342800 = 1 ∧ find CET.table 1667091600 = 2) ∧
    ((1648342800 : Int) ≤ 1650000000 ∧
      (∀ e ∈ CET.table,
        ¬((1648342800 : Int) < e.starts_at_utc ∧
          e.starts_at_utc ≤ 1650000000)) ∧
      CET.get_offset_utc 1648342800 = CET.get_offset_utc 1650000000) :=
  ⟨⟨by decide,
      (get_offset_utc_step_function CET 1648342800 1667091600
        (by decide)).1⟩,
    ⟨by decide, by decide⟩,
    ⟨by decide, by decide,
      (get_offset_utc_step_function CET 1648342800 1650000000
        (by decide)).2 (by decide)⟩⟩

/-- C5: on a sorted, non-empty, total transition table the search returns
a valid index, that of the last entry whose `starts_at_utc` is at most
the query; and a query exactly at a transition instant returns the
new offset of the transition itself. -/
theorem find_contract (z : Zone) (hs : sortedTable z.table)
    (hne : z.table ≠ []) (t : Int)
    (hfirst : (z.entry 0).starts_at_utc ≤ t) :
    find z.table t < z.table.length ∧
    (z.entry (find z.table t)).starts_at_utc ≤ t ∧
    (∀ k, k < z.table.length → (z.entry k).starts_at_utc ≤ t →
      k ≤ find z.table t) ∧
    (∀ j, j < z.table.length →
      z.get_offset_utc (z.entry j).starts_at_utc = (z.entry j).offset) := by
  refine ⟨find_lt_length t z.table hne, find_starts_le t z.table hfirst,
    fun k hk hke => find_greatest t z.table hs k hk hke, fun j hj => ?_⟩
  simp only [Zone.get_offset_utc, Zone.entry]
  rw [find_boundary z.table hs j hj]

/-- C5 witness: the contract instantiated on the Central-European zone at
local noon 2022-06-15 and at its own transition instants. -/
theorem find_contract_check :
    sortedTable CET.table ∧ CET.table ≠ [] ∧
    (CET.entry 0).starts_at_utc ≤ 1655294400 ∧
    (find CET.table 1655294400 < CET.table.length ∧
      (CET.entry (find CET.table 1655294400)).starts_at_utc ≤ 1655294400 ∧
      (∀ k, k < CET.table.length →
        (CET.entry k).starts_at_utc ≤ 1655294400 →
        k ≤ find CET.table 1655294400) ∧
      (∀ j, j < CET.table.length →
        CET.get_offset_utc (CET.entry j).starts_at_utc =
          (CET.entry j).offset)) :=
  ⟨by decide, by decide, by decide,
    find_contract CET (by decide) (by decide) 1655294400 (by decide)⟩

/-- C6: converting wall-clock 2016-10-08 17:00 through Europe/London
(observing +01:00 then) and re-expressing it through Europe/Berlin
(observing +02:00 then) preserves the absolute instant and shows local
wall-clock 18:00 in Berlin, equalling the direct Berlin construction. -/
theorem london_to_berlin_conversion :
    to_timezone (assume_timezone_utc 1475946000 LONDON) BERLIN =
      assume_timezone_utc 1475949600 BERLIN ∧
    (to_timezone (assume_timezone_utc 1475946000 LONDON) BERLIN).utc =
      (assume_timezone_utc 1475946000 LONDON).utc ∧
    (to_timezone (assume_timezone_utc 1475946000 LONDON) BERLIN).wall =
      1475949600 ∧
    (LONDON.get_offset_utc 1475946000).seconds = 3600 ∧
    (BERLIN.get_offset_utc
      (assume_timezone_utc 1475946000 LONDON).utc).seconds = 7200 := by
  decide

theorem find_canonical (db : List DirectoryEntry) (e : DirectoryEntry)
    (hs : db.Pairwise (fun x y => x.canonical_name ≠ y.canonical_name))
    (he : e ∈ db) :
    db.find? (fun x => x.canonical_name == e.canonical_name) = some e := by
  induction db with
  | nil => cases he
  | cons x rest ih =>
    rcases List.mem_cons.mp he with rfl | hmem
    · exact List.find?_cons_of_pos _ (by simp)
    · have hx : x.canonical_name ≠ e.canonical_name :=
        (List.pairwise_cons.mp hs).1 e hmem
      rw [List.find?_cons_of_neg _ (by simp [hx])]
      exact ih (List.pairwise_cons.mp hs).2 hmem

theorem find_alias (db : List DirectoryEntry) (e : DirectoryEntry)
    (a : String) (he : e ∈ db) (ha : a ∈ e.aliases)
    (hu : ∀ x ∈ db, a ∈ x.aliases → x = e) :
    db.find? (fun x => x.aliases.contains a) = some e := by
  induction db with
  | nil => cases he
  | cons x rest ih =>
    by_cases hx : a ∈ x.aliases
    · have hxe : x = e := hu x (List.mem_cons_self x rest) hx
      subst hxe
      exact List.find?_cons_of_pos _ (List.elem_iff.mpr hx)
    · have step : (x :: rest).find? (fun y => y.aliases.contains a) =
          rest.find? (fun y => y.aliases.contains a) :=
        List.find?_cons_of_neg rest (fun hc => hx (List.elem_iff.mp hc))
      rw [step]
      have hmem : e ∈ rest := by
        rcases List.mem_cons.mp he with rfl | h
        · exact absurd ha hx
        · exact h
      exact ih hmem (fun y hy hay => hu y (List.mem_cons_of_mem x hy) hay)

/-- C7: in a directory with pairwise distinct canonical names, looking a
zone up by its canonical name and by any of its registered aliases (an
alias that collides with no canonical name and belongs to that entry
alone) both succeed and return the same zone; the canonical match is
tried first, the alias index only on a miss. -/
theorem get_by_name_alias_consistent (db : List DirectoryEntry)
    (e : DirectoryEntry) (a : String)
    (hs : db.Pairwise (fun x y => x.canonical_name ≠ y.canonical_name))
    (he : e ∈ db) (ha : a ∈ e.aliases)
    (hnc : ∀ x ∈ db, x.canonical_name ≠ a)
    (hu : ∀ x ∈ db, a ∈ x.aliases → x = e) :
    get_by_name db e.canonical_name = some e.zone ∧
    get_by_name db a = some e.zone := by
  constructor
  · rw [get_by_name, find_canonical db e hs he]
  · have h1 : db.find? (fun x => x.canonical_name == a) = none := by
      rw [List.find?_eq_none]
      intro x hx
      simpa using hnc x hx
    rw [get_by_name, h1, find_alias db e a he ha hu]

/-- C7 witness: in the sample directory, Asia/Shanghai and its
platform-specific alias "China Standard Time" resolve to the same zone. -/
theorem get_by_name_alias_consistent_check :
    sampleDb.Pairwise (fun x y => x.canonical_name ≠ y.canonical_name) ∧
    get_by_name sampleDb "Asia/Shanghai" =
      some ⟨"Asia/Shanghai", [⟨IMIN, ⟨28800, "CST", false⟩⟩]⟩ ∧
    get_by_name sampleDb "China Standard Time" =
      some ⟨"Asia/Shanghai", [⟨IMIN, ⟨28800, "CST", false⟩⟩]⟩ :=
  ⟨by decide,
    get_by_name_alias_consistent sampleDb
      ⟨"Asia/Shanghai", ["China Standard Time"],
        ⟨"Asia/Shanghai", [⟨IMIN, ⟨28800, "CST", false⟩⟩]⟩⟩
      "China Standard Time" (by decide) (by decide) (by decide) (by decide)
      (by decide)⟩

/-- C8: `find_by_name` returns exactly the zones of the entries whose
canonical name contains the fragment; it returns the empty sequence
(never a failure) when nothing matches; and its output is a sublist of
the zones of the database in database order, hence stable and deterministic
for a fixed database. -/
theorem find_by_name_contract (db : List DirectoryEntry) (frag : String) :
    (∀ z, z ∈ find_by_name db frag ↔
      ∃ e, e ∈ db ∧ nameContains e.canonical_name frag = true ∧
        z = e.zone) ∧
    ((∀ e ∈ db, nameContains e.canonical_name frag = false) →
      find_by_name db frag = []) ∧
    (find_by_name db frag).Sublist (db.map (fun e => e.zone)) := by
  refine ⟨fun z => ?_, fun h => ?_, ?_⟩
  · simp only [find_by_name, List.mem_map, List.mem_filter]
    constructor
    · rintro ⟨e, ⟨hmem, hc⟩, rfl⟩
      exact ⟨e, hmem, hc, rfl⟩
    · rintro ⟨e, hmem, hc, rfl⟩
      exact ⟨e, ⟨hmem, hc⟩, rfl⟩
  · rw [find_by_name, List.filter_eq_nil_iff.mpr, List.map_nil]
    intro e hmem
    simp [h e hmem]
  · exact (List.filter_sublist db).map _

/-- C9: `assume_timezone_utc` keeps the wall-clock reading of `p`
unchanged, attaches the offset the zone reports for `p` read as a UTC
instant, and the resulting absolute instant is that pivot minus the
attached offset. -/
theorem assume_timezone_utc_wall_clock (p : Int) (z : Zone) :
    (assume_timezone_utc p z).wall = p ∧
    (assume_timezone_utc p z).offset = (z.get_offset_utc p).seconds ∧
    (assume_timezone_utc p z).utc = p - (z.get_offset_utc p).seconds := by
  refine ⟨?_, ?_, ?_⟩ <;>
    simp [assume_timezone_utc, assume_offset, assume_utc,
      OffsetDateTime.wall]

/-- C10: `assume_timezone` mirrors the variant shape of
`get_offset_local` exactly — `None` to `None`, `Some` to `Some`,
`Ambiguous` to `Ambiguous` preserving component order — and each
produced value keeps the wall-clock of `p` with the resolved offset
attached. -/
theorem assume_timezone_shape (p : Int) (z : Zone) :
    (z.get_offset_local p = .None → assume_timezone p z = .None) ∧
    (∀ o, z.get_offset_local p = .Some o →
      assume_timezone p z = .Some (assume_offset p o.seconds) ∧
      (assume_offset p o.seconds).wall = p ∧
      (assume_offset p o.seconds).offset = o.seconds) ∧
    (∀ a b, z.get_offset_local p = .Ambiguous a b →
      assume_timezone p z =
        .Ambiguous (assume_offset p a.seconds) (assume_offset p b.seconds) ∧
      (assume_offset p a.seconds).wall = p ∧
      (assume_offset p b.seconds).wall = p ∧
      (assume_offset p a.seconds).offset = a.seconds ∧
      (assume_offset p b.seconds).offset = b.seconds) := by
  have hutc : (assume_utc p).utc = p := by
    simp [assume_utc, assume_offset]
  refine ⟨fun h => ?_, fun o h => ?_, fun a b h => ?_⟩ <;>
    simp [assume_timezone, hutc, h, assume_offset, OffsetDateTime.wall]

/-- C10 witness: the shape correspondence instantiated on the
Central-European zone at local 2022-03-27 01:30. -/
theorem assume_timezone_shape_check :
    CET.get_offset_local 1648344600 = .Some CET_OFFSET ∧
    assume_timezone 1648344600 CET =
      .Some (assume_offset 1648344600 CET_OFFSET.seconds) :=
  ⟨by decide,
    ((assume_timezone_shape 1648344600 CET).2.1 CET_OFFSET (by decide)).1⟩

end TimeTz
